import Mathlib

/-!
Verification of the in-memory multi-queue message broker
(`src/QueueManager.ts` plus the Express adapter `server.ts`).

The TypeScript core is a `QueueManager` class holding a `Map` from queue
name to `{ messages, waitingConsumers }`.  `addMessage` hands a new message
to the oldest blocked consumer if one exists (cancelling its `setTimeout`
deadline), otherwise appends it to the backlog.  `getMessage` pops the
oldest backlog message if one exists, otherwise registers a waiter together
with a deadline timer whose callback removes the waiter from the list and
resolves the promise with `null`.

The embedding makes the relevant parts of the Node.js runtime explicit
state: the set of pending (armed, uncancelled) `setTimeout` timers, the
promise-resolution log (a JS promise settles at most once; a second
`resolve` call is a no-op), a monotone clock, and ghost logs recording
waiter registrations, ids issued by the POST handler, and invocations of
the stored `reject` closure.  Node never runs a timer callback after
`clearTimeout`, so a timer can fire only while it is still pending.
-/

namespace Queues

/-- A message, following `interface Message` in `QueueManager.ts`.  The
adapter generates the id with `randomUUID()`; freshness is the only property
the system relies on, so ids are embedded as naturals drawn from a counter. -/
structure Message where
  id : Nat
  content : String
  timestamp : Nat
deriving Repr, DecidableEq

/-- A blocked consumer, following `interface WaitingConsumer`.  The stored
`resolve` and `reject` closures both settle the promise created by the
registering `getMessage` call; that promise is identified by the same
number as the consumer's `timeoutId` (one promise and one timer per
waiter), so the record keeps the id and the closures are embedded as
`QueueManager.consumerResolve` and `QueueManager.consumerReject` below. -/
structure WaitingConsumer where
  timeoutId : Nat
deriving Repr, DecidableEq

/-- Per-queue state, following `interface Queue`. -/
structure Queue where
  messages : List Message
  waitingConsumers : List WaitingConsumer
deriving Repr, DecidableEq

/-- A pending `setTimeout` registration: the timer `timeoutId` armed by a
`getMessage` call on queue `queueName`, due at clock value `deadline`.
`clearTimeout` deletes the entry; a deleted or fired timer never runs. -/
structure Timer where
  timeoutId : Nat
  queueName : String
  deadline : Nat
deriving Repr, DecidableEq

/-- A promise settlement record: the promise of waiter `wid` was resolved
with `result` (`some m` = message delivered, `none` = timed out with
`null`) while the clock read `time`. -/
structure Resolution where
  wid : Nat
  result : Option Message
  time : Nat
deriving Repr, DecidableEq

/-- Ghost record of one waiter registration performed by `getMessage`. -/
structure WaiterReg where
  wid : Nat
  queueName : String
  registeredAt : Nat
  timeoutDuration : Nat
deriving Repr, DecidableEq

/-- The whole system state: the `QueueManager` instance (field `queues`)
together with the parts of the JS runtime its behaviour depends on, and
ghost logs used only to state properties.  The `Map<string, Queue>` with
lazy creation is embedded as a total function defaulting to the empty
queue: `getQueue` initialises an absent entry to the empty queue before
use, so an absent entry and an empty one are observationally identical. -/
structure QueueManager where
  queues : String → Queue
  timers : List Timer
  resolutions : List Resolution
  waiterLog : List WaiterReg
  rejectLog : List Nat
  nextId : Nat
  nextMsgId : Nat
  issuedIds : List Nat
  now : Nat

/-- The queue a fresh name maps to. -/
def emptyQueue : Queue := ⟨[], []⟩

/-- `getQueue(queueName)`: with the total-function embedding of the map,
lookup-or-create is plain application. -/
def QueueManager.getQueue (s : QueueManager) (name : String) : Queue :=
  s.queues name

/-- Pointwise update of the registry at one name (mutation of the `Queue`
object held by the map). -/
def updateQueue (f : String → Queue) (name : String) (q : Queue) : String → Queue :=
  fun m => if m = name then q else f m

/-- `clearTimeout(timeoutId)`: the pending timer with that id, if any, is
deleted and its callback will never run. -/
def QueueManager.clearTimeout (s : QueueManager) (tid : Nat) : QueueManager :=
  { s with timers := s.timers.filter (fun t => t.timeoutId ≠ tid) }

/-- Settling the promise of waiter `wid`.  A JS promise is single-shot:
resolving an already-settled promise is a no-op. -/
def QueueManager.promiseResolve (s : QueueManager) (wid : Nat) (r : Option Message) :
    QueueManager :=
  if s.resolutions.any (fun x => x.wid == wid) then s
  else { s with resolutions := s.resolutions ++ [⟨wid, r, s.now⟩] }

/-- The `resolve` closure stored in a `WaitingConsumer`:
`(message) => resolve(message)`. -/
def QueueManager.consumerResolve (s : QueueManager) (c : WaitingConsumer) (m : Message) :
    QueueManager :=
  s.promiseResolve c.timeoutId (some m)

/-- The `reject` closure stored in a `WaitingConsumer`: `() => resolve(null)`.
Invocations are recorded in the ghost `rejectLog`; no operation of the
source ever calls this closure. -/
def QueueManager.consumerReject (s : QueueManager) (c : WaitingConsumer) : QueueManager :=
  let s1 := s.promiseResolve c.timeoutId none
  { s1 with rejectLog := s1.rejectLog ++ [c.timeoutId] }

/-- `addMessage(queueName, message)`: if a consumer is waiting, shift the
first one off the list, cancel its timeout and resolve it with the message;
otherwise push the message onto the backlog. -/
def QueueManager.addMessage (s : QueueManager) (name : String) (msg : Message) :
    QueueManager :=
  let q := s.getQueue name
  match q.waitingConsumers with
  | c :: rest =>
      let s1 := { s with queues := updateQueue s.queues name { q with waitingConsumers := rest } }
      let s2 := s1.clearTimeout c.timeoutId
      s2.consumerResolve c msg
  | [] =>
      { s with queues := updateQueue s.queues name { q with messages := q.messages ++ [msg] } }

/-- Outcome of a `getMessage` call: either a message returned synchronously
from the backlog, or the id of the waiter/timer registered for the caller. -/
inductive GetOutcome where
  | immediate (m : Message)
  | registered (wid : Nat)
deriving Repr, DecidableEq

/-- `getMessage(queueName, timeout)`: if the backlog is non-empty, shift and
return its first message; otherwise register a waiter at the tail of the
list and arm a deadline timer for `timeout` milliseconds. -/
def QueueManager.getMessage (s : QueueManager) (name : String) (timeout : Nat) :
    QueueManager × GetOutcome :=
  let q := s.getQueue name
  match q.messages with
  | m :: rest =>
      ({ s with queues := updateQueue s.queues name { q with messages := rest } }, .immediate m)
  | [] =>
      let wid := s.nextId
      ({ s with
          queues := updateQueue s.queues name
            ({ q with waitingConsumers := q.waitingConsumers ++ [⟨wid⟩] }),
          timers := s.timers ++ [⟨wid, name, s.now + timeout⟩],
          waiterLog := s.waiterLog ++ [⟨wid, name, s.now, timeout⟩],
          nextId := s.nextId + 1 }, .registered wid)

/-- The body of the `setTimeout` callback armed by `getMessage`: find this
consumer in the waiting list by its `timeoutId`, splice it out if present,
and resolve the promise with `null`. -/
def QueueManager.timeoutCallback (s : QueueManager) (name : String) (wid : Nat) :
    QueueManager :=
  let q := s.getQueue name
  let s1 :=
    match q.waitingConsumers.findIdx? (fun c => c.timeoutId == wid) with
    | some i =>
        { s with
          queues := updateQueue s.queues name ({ q with waitingConsumers := q.waitingConsumers.eraseIdx i }) }
    | none => s
  s1.promiseResolve wid none

/-- The POST handler `app.post` of the adapter: construct a message with a
fresh id and `Date.now()` timestamp, hand it to `addMessage`, and return the
generated id.  Total — it never blocks and never fails. -/
def QueueManager.submit (s : QueueManager) (name content : String) : QueueManager × Nat :=
  let msg : Message := ⟨s.nextMsgId, content, s.now⟩
  let s1 := { s with nextMsgId := s.nextMsgId + 1, issuedIds := s.issuedIds ++ [msg.id] }
  (s1.addMessage name msg, msg.id)

/-- Events of the system: the two HTTP entry points, expiry of a pending
timer, and the clock advancing. -/
inductive Ev where
  | submit (name content : String)
  | receive (name : String) (timeout : Nat)
  | fire (wid : Nat)
  | tick (d : Nat)

/-- One atomic step of the event loop.  `fire wid` is enabled only while
the timer is still pending (Node never runs a callback after
`clearTimeout`) and only once its deadline has been reached; firing removes
the timer and runs its callback. -/
def QueueManager.step (s : QueueManager) (e : Ev) : Option QueueManager :=
  match e with
  | .submit n c => some (s.submit n c).1
  | .receive n t => some (s.getMessage n t).1
  | .tick d => some { s with now := s.now + d }
  | .fire wid =>
      match s.timers.find? (fun t => t.timeoutId == wid) with
      | some t =>
          if t.deadline ≤ s.now then
            some (QueueManager.timeoutCallback
              { s with timers := s.timers.filter (fun u => u.timeoutId ≠ wid) }
              t.queueName wid)
          else none
      | none => none

/-- The state of a freshly constructed `QueueManager` under a fresh runtime. -/
def initState : QueueManager :=
  ⟨fun _ => emptyQueue, [], [], [], [], 0, 0, [], 0⟩

/-- Run a list of events from a state; `none` if some event was not enabled. -/
def run (s : QueueManager) : List Ev → Option QueueManager
  | [] => some s
  | e :: es =>
      match s.step e with
      | some s1 => run s1 es
      | none => none

/-- States reachable from a fresh `QueueManager` by some event sequence. -/
def Reachable (s : QueueManager) : Prop :=
  ∃ evs, run initState evs = some s

/-- A concrete reachable state, default `initState` on a disabled event. -/
def runD (evs : List Ev) : QueueManager :=
  (run initState evs).getD initState

/-- Submit a list of payloads to one queue, in order. -/
def submitList (s : QueueManager) (name : String) : List String → QueueManager
  | [] => s
  | content :: cs => submitList (s.submit name content).1 name cs

/-- Perform `k` receives with timeout 0 on one queue, collecting for each
the content of the synchronously returned message (`none` when the call
blocked instead). -/
def drain (s : QueueManager) (name : String) : Nat → List (Option String)
  | 0 => []
  | k + 1 =>
      match s.getMessage name 0 with
      | (s1, .immediate m) => some m.content :: drain s1 name k
      | (s1, .registered _) => none :: drain s1 name k

/-- Whitespace skipped by JS `parseInt`. -/
def jsWhitespace (c : Char) : Bool :=
  c == ' ' || c == '\t' || c == '\n' || c == '\r'

/-- Value of a list of decimal digit characters. -/
def digitsToNat (ds : List Char) : Nat :=
  ds.foldl (fun a c => a * 10 + (c.toNat - 48)) 0

/-- JS `parseInt(str, 10)`: skip leading whitespace, read an optional sign
and a maximal run of decimal digits; `NaN` (here `none`) when no digit is
found. -/
def jsParseInt10 (str : String) : Option Int :=
  let cs := str.data.dropWhile jsWhitespace
  let signRest : Int × List Char :=
    match cs with
    | '-' :: r => (-1, r)
    | '+' :: r => (1, r)
    | r => (1, r)
  let ds := signRest.2.takeWhile Char.isDigit
  if ds.isEmpty then none
  else some (signRest.1 * (digitsToNat ds : Int))

/-- The timeout value the GET handler passes to `getMessage`:
`req.query.timeout ? parseInt(req.query.timeout, 10) : 10000`.  `none` on
the input side is an absent query parameter; JS truthiness makes the empty
string fall back to the default as well; `none` on the result side is
`NaN`. -/
def parseTimeoutParam : Option String → Option Int
  | none => some 10000
  | some str => if str = "" then some 10000 else jsParseInt10 str

/-!  ## The global invariant of reachable states  -/

/-- Invariant tying together the queue registry, the pending timers, the
promise resolutions and the ghost logs.  It is established by `initState`
and preserved by every step. -/
structure Inv (s : QueueManager) : Prop where
  waiters_lt : ∀ n c, c ∈ (s.queues n).waitingConsumers → c.timeoutId < s.nextId
  waiters_nodup : ∀ n, ((s.queues n).waitingConsumers.map WaitingConsumer.timeoutId).Nodup
  timers_lt : ∀ t ∈ s.timers, t.timeoutId < s.nextId
  timers_nodup : (s.timers.map Timer.timeoutId).Nodup
  timer_mem : ∀ t ∈ s.timers,
    ∃ c ∈ (s.queues t.queueName).waitingConsumers, c.timeoutId = t.timeoutId
  timer_unres : ∀ t ∈ s.timers, ∀ r ∈ s.resolutions, r.wid ≠ t.timeoutId
  timer_reg : ∀ t ∈ s.timers, ∃ reg ∈ s.waiterLog, reg.wid = t.timeoutId ∧
    reg.queueName = t.queueName ∧ t.deadline = reg.registeredAt + reg.timeoutDuration
  waiter_timer : ∀ n c, c ∈ (s.queues n).waitingConsumers →
    ∃ t ∈ s.timers, t.timeoutId = c.timeoutId ∧ t.queueName = n
  res_lt : ∀ r ∈ s.resolutions, r.wid < s.nextId
  res_nodup : (s.resolutions.map Resolution.wid).Nodup
  resolved_gone : ∀ r ∈ s.resolutions, ∀ n c, c ∈ (s.queues n).waitingConsumers →
    c.timeoutId ≠ r.wid
  res_none_time : ∀ r ∈ s.resolutions, r.result = none →
    ∃ reg ∈ s.waiterLog, reg.wid = r.wid ∧ reg.registeredAt + reg.timeoutDuration ≤ r.time
  pending_or_resolved : ∀ wid < s.nextId,
    (∃ n, ∃ c ∈ (s.queues n).waitingConsumers, c.timeoutId = wid) ∨
    (∃ r ∈ s.resolutions, r.wid = wid)
  wlog_wids : s.waiterLog.map WaiterReg.wid = List.range s.nextId
  steady : ∀ n, (s.queues n).messages = [] ∨ (s.queues n).waitingConsumers = []
  rejects : s.rejectLog = []
  issued : s.issuedIds = List.range s.nextMsgId

/-!  ## List helper lemmas  -/

theorem nodup_map_head {α : Type} (f : α → Nat) {a : α} {t : List α}
    (h : ((a :: t).map f).Nodup) : ∀ d ∈ t, f d ≠ f a := by
  rw [List.map_cons, List.nodup_cons] at h
  intro d hd heq
  exact h.1 (heq ▸ List.mem_map_of_mem f hd)

theorem nodup_map_tail {α : Type} (f : α → Nat) {a : α} {t : List α}
    (h : ((a :: t).map f).Nodup) : (t.map f).Nodup := by
  rw [List.map_cons, List.nodup_cons] at h
  exact h.2

theorem any_wid_eq_false {l : List Resolution} {wid : Nat}
    (h : ∀ r ∈ l, r.wid ≠ wid) :
    (l.any (fun x => x.wid == wid)) = false := by
  rw [List.any_eq_false]
  intro x hx
  simp [h x hx]

theorem promiseResolve_eq_append {s : QueueManager} {wid : Nat} {r : Option Message}
    (h : ∀ x ∈ s.resolutions, x.wid ≠ wid) :
    s.promiseResolve wid r = { s with resolutions := s.resolutions ++ [⟨wid, r, s.now⟩] } := by
  unfold QueueManager.promiseResolve
  rw [any_wid_eq_false h]
  simp

theorem promiseResolve_noop {s : QueueManager} {wid : Nat} {r : Option Message}
    (h : ∃ x ∈ s.resolutions, x.wid = wid) :
    s.promiseResolve wid r = s := by
  unfold QueueManager.promiseResolve
  have : (s.resolutions.any (fun x => x.wid == wid)) = true := by
    rw [List.any_eq_true]
    obtain ⟨x, hx, hxw⟩ := h
    exact ⟨x, hx, by simp [hxw]⟩
  rw [this]
  simp

theorem erase_found {l : List WaitingConsumer} {wid : Nat}
    (hnd : (l.map WaitingConsumer.timeoutId).Nodup)
    (hmem : ∃ c ∈ l, c.timeoutId = wid) :
    ∃ i, List.findIdx? (fun c => c.timeoutId == wid) l = some i ∧
      l.eraseIdx i = l.filter (fun c => c.timeoutId ≠ wid) := by
  induction l with
  | nil => simp at hmem
  | cons a t ih =>
    by_cases ha : a.timeoutId = wid
    · refine ⟨0, ?_, ?_⟩
      · rw [List.findIdx?_cons]
        simp [ha]
      · have ht : ∀ d ∈ t, d.timeoutId ≠ wid := by
          intro d hd
          have := nodup_map_head WaitingConsumer.timeoutId hnd d hd
          rw [ha] at this
          exact this
        rw [List.eraseIdx_cons_zero, List.filter_cons]
        have : (decide (a.timeoutId ≠ wid)) = false := by simp [ha]
        rw [this, if_neg (by simp)]
        symm
        rw [List.filter_eq_self]
        intro d hd
        simp [ht d hd]
    · obtain ⟨c, hc, hcw⟩ := hmem
      have hmem2 : ∃ c ∈ t, c.timeoutId = wid := by
        rcases List.mem_cons.mp hc with h1 | h2
        · exact absurd (h1 ▸ hcw) ha
        · exact ⟨c, h2, hcw⟩
      obtain ⟨i, hf, he⟩ := ih (nodup_map_tail WaitingConsumer.timeoutId hnd) hmem2
      refine ⟨i + 1, ?_, ?_⟩
      · rw [List.findIdx?_cons, if_neg (by simp [ha])]
        rw [show (0 + 1 : Nat) = 0 + 1 from rfl, List.findIdx?_succ, hf]
        rfl
      · rw [List.eraseIdx_cons_succ, he, List.filter_cons, if_pos (by simp [ha])]


theorem filter_wid_len_le_one {l : List Resolution}
    (hnd : (l.map Resolution.wid).Nodup) (wid : Nat) :
    (l.filter (fun r => r.wid == wid)).length ≤ 1 := by
  induction l with
  | nil => simp
  | cons a t ih =>
    by_cases ha : a.wid = wid
    · rw [List.filter_cons, if_pos (by simp [ha])]
      have ht : t.filter (fun r => r.wid == wid) = [] := by
        rw [List.filter_eq_nil_iff]
        intro r hr
        have hne := nodup_map_head Resolution.wid hnd r hr
        rw [ha] at hne
        simp [hne]
      simp [ht]
    · rw [List.filter_cons, if_neg (by simp [ha])]
      exact ih (nodup_map_tail Resolution.wid hnd)

theorem filter_wid_len_eq_one {l : List Resolution} {wid : Nat}
    (hnd : (l.map Resolution.wid).Nodup) (hmem : ∃ r ∈ l, r.wid = wid) :
    (l.filter (fun r => r.wid == wid)).length = 1 := by
  induction l with
  | nil => simp at hmem
  | cons a t ih =>
    by_cases ha : a.wid = wid
    · rw [List.filter_cons, if_pos (by simp [ha])]
      have ht : t.filter (fun r => r.wid == wid) = [] := by
        rw [List.filter_eq_nil_iff]
        intro r hr
        have hne := nodup_map_head Resolution.wid hnd r hr
        rw [ha] at hne
        simp [hne]
      simp [ht]
    · rw [List.filter_cons, if_neg (by simp [ha])]
      refine ih (nodup_map_tail Resolution.wid hnd) ?_
      obtain ⟨r, hr, hrw⟩ := hmem
      rcases List.mem_cons.mp hr with h1 | h2
      · exact absurd (h1 ▸ hrw) ha
      · exact ⟨r, h2, hrw⟩

theorem find?_timer_eq {l : List Timer} (hnd : (l.map Timer.timeoutId).Nodup)
    {t : Timer} (ht : t ∈ l) {wid : Nat} (hid : t.timeoutId = wid) :
    l.find? (fun u => u.timeoutId == wid) = some t := by
  induction l with
  | nil => cases ht
  | cons a r ih =>
    rw [List.find?_cons]
    by_cases ha : a.timeoutId = wid
    · rcases List.mem_cons.mp ht with h1 | h2
      · simp [ha, h1]
      · exfalso
        have hne := nodup_map_head Timer.timeoutId hnd t h2
        rw [hid, ha] at hne
        exact hne rfl
    · have h2 : t ∈ r := by
        rcases List.mem_cons.mp ht with h1 | h2
        · exact absurd (h1 ▸ hid) ha
        · exact h2
      have : (a.timeoutId == wid) = false := by simp [ha]
      rw [this]
      exact ih (nodup_map_tail Timer.timeoutId hnd) h2

/-!  ## Shape lemmas for the operations  -/

theorem addMessage_deliver {s : QueueManager} {name : String} {msg : Message}
    {c : WaitingConsumer} {rest : List WaitingConsumer}
    (hw : (s.queues name).waitingConsumers = c :: rest)
    (hunres : ∀ r ∈ s.resolutions, r.wid ≠ c.timeoutId) :
    s.addMessage name msg =
      { s with
        queues := updateQueue s.queues name ⟨(s.queues name).messages, rest⟩,
        timers := s.timers.filter (fun t => t.timeoutId ≠ c.timeoutId),
        resolutions := s.resolutions ++ [⟨c.timeoutId, some msg, s.now⟩] } := by
  simp only [QueueManager.addMessage, QueueManager.getQueue]
  rw [hw]
  simp only [QueueManager.clearTimeout, QueueManager.consumerResolve]
  rw [promiseResolve_eq_append (by simpa using hunres)]

theorem addMessage_enqueue {s : QueueManager} {name : String} {msg : Message}
    (hw : (s.queues name).waitingConsumers = []) :
    s.addMessage name msg =
      { s with queues := updateQueue s.queues name ⟨(s.queues name).messages ++ [msg], []⟩ } := by
  simp only [QueueManager.addMessage, QueueManager.getQueue]
  rw [hw]

theorem getMessage_immediate {s : QueueManager} {name : String} {timeout : Nat}
    {m : Message} {rest : List Message}
    (hm : (s.queues name).messages = m :: rest) :
    s.getMessage name timeout =
      ({ s with queues := updateQueue s.queues name ⟨rest, (s.queues name).waitingConsumers⟩ },
        .immediate m) := by
  simp only [QueueManager.getMessage, QueueManager.getQueue]
  rw [hm]

theorem getMessage_registered {s : QueueManager} {name : String} {timeout : Nat}
    (hm : (s.queues name).messages = []) :
    s.getMessage name timeout =
      ({ s with
          queues := updateQueue s.queues name
            ⟨[], (s.queues name).waitingConsumers ++ [⟨s.nextId⟩]⟩,
          timers := s.timers ++ [⟨s.nextId, name, s.now + timeout⟩],
          waiterLog := s.waiterLog ++ [⟨s.nextId, name, s.now, timeout⟩],
          nextId := s.nextId + 1 }, .registered s.nextId) := by
  simp only [QueueManager.getMessage, QueueManager.getQueue]
  rw [hm]

theorem timeoutCallback_found {s : QueueManager} {name : String} {wid : Nat}
    (hnd : ((s.queues name).waitingConsumers.map WaitingConsumer.timeoutId).Nodup)
    (hmem : ∃ c ∈ (s.queues name).waitingConsumers, c.timeoutId = wid)
    (hunres : ∀ r ∈ s.resolutions, r.wid ≠ wid) :
    s.timeoutCallback name wid =
      { s with
        queues := updateQueue s.queues name
          ⟨(s.queues name).messages,
            (s.queues name).waitingConsumers.filter (fun c => c.timeoutId ≠ wid)⟩,
        resolutions := s.resolutions ++ [⟨wid, none, s.now⟩] } := by
  obtain ⟨i, hf, he⟩ := erase_found hnd hmem
  simp only [QueueManager.timeoutCallback, QueueManager.getQueue]
  rw [hf]
  simp only
  rw [he]
  rw [promiseResolve_eq_append (by simpa using hunres)]

theorem timeoutCallback_absent {s : QueueManager} {name : String} {wid : Nat}
    (habs : ∀ c ∈ (s.queues name).waitingConsumers, c.timeoutId ≠ wid)
    (hres : ∃ x ∈ s.resolutions, x.wid = wid) :
    s.timeoutCallback name wid = s := by
  have hf : List.findIdx? (fun c => c.timeoutId == wid)
      (s.queues name).waitingConsumers = none := by
    rw [List.findIdx?_eq_none_iff]
    intro c hc
    simp [habs c hc]
  simp only [QueueManager.timeoutCallback, QueueManager.getQueue]
  rw [hf]
  exact promiseResolve_noop hres

theorem step_fire_eq {s : QueueManager} {wid : Nat} {t : Timer}
    (hnd : (s.timers.map Timer.timeoutId).Nodup)
    (ht : t ∈ s.timers) (hid : t.timeoutId = wid) (hd : t.deadline ≤ s.now) :
    s.step (Ev.fire wid) =
      some (QueueManager.timeoutCallback
        { s with timers := s.timers.filter (fun u => u.timeoutId ≠ wid) }
        t.queueName wid) := by
  simp only [QueueManager.step]
  rw [find?_timer_eq hnd ht hid]
  simp [hd]

@[simp] theorem updateQueue_same {f : String → Queue} {name : String} {q : Queue} :
    updateQueue f name q name = q := by
  simp [updateQueue]

theorem updateQueue_other {f : String → Queue} {name m : String} {q : Queue}
    (h : m ≠ name) : updateQueue f name q m = f m := by
  simp [updateQueue, h]

/-- Two waiters of different queues never share an id (derived from the
waiter/timer correspondence and timer-id uniqueness). -/
theorem Inv.waiters_disjoint {s : QueueManager} (hInv : Inv s) {n m : String}
    (hnm : n ≠ m) {c d : WaitingConsumer}
    (hc : c ∈ (s.queues n).waitingConsumers) (hd : d ∈ (s.queues m).waitingConsumers) :
    c.timeoutId ≠ d.timeoutId := by
  intro heq
  obtain ⟨t, ht, htid, htq⟩ := hInv.waiter_timer n c hc
  obtain ⟨u, hu, huid, huq⟩ := hInv.waiter_timer m d hd
  have htu : t = u :=
    List.inj_on_of_nodup_map hInv.timers_nodup ht hu (by rw [htid, huid, heq])
  rw [htu, huq] at htq
  exact hnm htq.symm

/-- A waiter still in some list is unresolved. -/
theorem Inv.waiter_unres {s : QueueManager} (hInv : Inv s) {n : String}
    {c : WaitingConsumer} (hc : c ∈ (s.queues n).waitingConsumers) :
    ∀ r ∈ s.resolutions, r.wid ≠ c.timeoutId := by
  intro r hr heq
  exact hInv.resolved_gone r hr n c hc heq.symm

theorem inv_init : Inv initState := by
  refine ⟨?_, ?_, ?_, ?_, ?_, ?_, ?_, ?_, ?_, ?_, ?_, ?_, ?_, ?_, ?_, ?_, ?_⟩ <;>
    simp [initState, emptyQueue]

theorem inv_tick {s : QueueManager} (hInv : Inv s) (d : Nat) :
    Inv { s with now := s.now + d } :=
  ⟨hInv.waiters_lt, hInv.waiters_nodup, hInv.timers_lt, hInv.timers_nodup,
    hInv.timer_mem, hInv.timer_unres, hInv.timer_reg, hInv.waiter_timer,
    hInv.res_lt, hInv.res_nodup, hInv.resolved_gone, hInv.res_none_time,
    hInv.pending_or_resolved, hInv.wlog_wids, hInv.steady, hInv.rejects, hInv.issued⟩

theorem inv_addMessage {s : QueueManager} (hInv : Inv s) (name : String) (msg : Message) :
    Inv (s.addMessage name msg) := by
  rcases hw : (s.queues name).waitingConsumers with _ | ⟨c, rest⟩
  · -- no waiter: the message is appended to the backlog
    rw [addMessage_enqueue hw]
    refine ⟨?_, ?_, ?_, ?_, ?_, ?_, ?_, ?_, ?_, ?_, ?_, ?_, ?_, ?_, ?_, ?_, ?_⟩ <;> dsimp only
    · intro n d hd
      by_cases hn : n = name
      · subst hn; simp at hd
      · rw [updateQueue_other hn] at hd
        exact hInv.waiters_lt n d hd
    · intro n
      by_cases hn : n = name
      · subst hn; simp
      · rw [updateQueue_other hn]
        exact hInv.waiters_nodup n
    · exact hInv.timers_lt
    · exact hInv.timers_nodup
    · intro t ht
      obtain ⟨d, hd, hdid⟩ := hInv.timer_mem t ht
      by_cases hq : t.queueName = name
      · rw [hq, hw] at hd
        simp at hd
      · rw [updateQueue_other hq]
        exact ⟨d, hd, hdid⟩
    · exact hInv.timer_unres
    · exact hInv.timer_reg
    · intro n d hd
      by_cases hn : n = name
      · subst hn; simp at hd
      · rw [updateQueue_other hn] at hd
        exact hInv.waiter_timer n d hd
    · exact hInv.res_lt
    · exact hInv.res_nodup
    · intro r hr n d hd
      by_cases hn : n = name
      · subst hn; simp at hd
      · rw [updateQueue_other hn] at hd
        exact hInv.resolved_gone r hr n d hd
    · exact hInv.res_none_time
    · intro wid hwid
      rcases hInv.pending_or_resolved wid hwid with ⟨n, d, hd, hdid⟩ | hres
      · by_cases hn : n = name
        · subst hn; rw [hw] at hd; simp at hd
        · exact Or.inl ⟨n, d, by rw [updateQueue_other hn]; exact hd, hdid⟩
      · exact Or.inr hres
    · exact hInv.wlog_wids
    · intro n
      by_cases hn : n = name
      · subst hn; simp
      · rw [updateQueue_other hn]
        exact hInv.steady n
    · exact hInv.rejects
    · exact hInv.issued
  · -- a waiter exists: deliver directly
    have hc0 : c ∈ (s.queues name).waitingConsumers := by
      rw [hw]; exact List.mem_cons_self c rest
    have hrestmem : ∀ d ∈ rest, d ∈ (s.queues name).waitingConsumers := by
      intro d hd; rw [hw]; exact List.mem_cons_of_mem c hd
    have hnodup : ((c :: rest).map WaitingConsumer.timeoutId).Nodup := by
      have := hInv.waiters_nodup name; rwa [hw] at this
    have hrestne : ∀ d ∈ rest, d.timeoutId ≠ c.timeoutId :=
      nodup_map_head WaitingConsumer.timeoutId hnodup
    have hunres_c : ∀ r ∈ s.resolutions, r.wid ≠ c.timeoutId :=
      hInv.waiter_unres hc0
    rw [addMessage_deliver hw hunres_c]
    refine ⟨?_, ?_, ?_, ?_, ?_, ?_, ?_, ?_, ?_, ?_, ?_, ?_, ?_, ?_, ?_, ?_, ?_⟩ <;> dsimp only
    · intro n d hd
      by_cases hn : n = name
      · subst hn; simp at hd
        exact hInv.waiters_lt n d (hrestmem d hd)
      · rw [updateQueue_other hn] at hd
        exact hInv.waiters_lt n d hd
    · intro n
      by_cases hn : n = name
      · subst hn; simp
        exact nodup_map_tail WaitingConsumer.timeoutId hnodup
      · rw [updateQueue_other hn]
        exact hInv.waiters_nodup n
    · intro t ht
      exact hInv.timers_lt t (List.mem_of_mem_filter ht)
    · exact ((List.filter_sublist _).map _).nodup hInv.timers_nodup
    · intro t ht
      have htm := List.mem_of_mem_filter ht
      have hne : t.timeoutId ≠ c.timeoutId := by
        have := (List.mem_filter.mp ht).2
        simpa using this
      obtain ⟨d, hd, hdid⟩ := hInv.timer_mem t htm
      by_cases hq : t.queueName = name
      · rw [hq] at hd ⊢
        rw [updateQueue_same]
        rw [hw] at hd
        rcases List.mem_cons.mp hd with h1 | h2
        · rw [h1] at hdid
          exact absurd hdid.symm hne
        · exact ⟨d, h2, hdid⟩
      · rw [updateQueue_other hq]
        exact ⟨d, hd, hdid⟩
    · intro t ht r hr
      have htm := List.mem_of_mem_filter ht
      have hne : t.timeoutId ≠ c.timeoutId := by
        have := (List.mem_filter.mp ht).2
        simpa using this
      rcases List.mem_append.mp hr with h | h
      · exact hInv.timer_unres t htm r h
      · rw [List.mem_singleton] at h
        subst h
        exact fun heq => hne heq.symm
    · intro t ht
      exact hInv.timer_reg t (List.mem_of_mem_filter ht)
    · intro n d hd
      by_cases hn : n = name
      · subst hn
        rw [updateQueue_same] at hd
        obtain ⟨t, ht, htid, htq⟩ := hInv.waiter_timer n d (hrestmem d hd)
        refine ⟨t, List.mem_filter.mpr ⟨ht, ?_⟩, htid, htq⟩
        simp [htid, hrestne d hd]
      · rw [updateQueue_other hn] at hd
        obtain ⟨t, ht, htid, htq⟩ := hInv.waiter_timer n d hd
        refine ⟨t, List.mem_filter.mpr ⟨ht, ?_⟩, htid, htq⟩
        simp [htid]
        exact hInv.waiters_disjoint hn hd hc0
    · intro r hr
      rcases List.mem_append.mp hr with h | h
      · exact hInv.res_lt r h
      · rw [List.mem_singleton] at h
        subst h
        exact hInv.waiters_lt name c hc0
    · rw [List.map_append, List.nodup_append]
      refine ⟨hInv.res_nodup, by simp, ?_⟩
      intro a ha hb
      simp at hb
      subst hb
      rw [List.mem_map] at ha
      obtain ⟨r, hr, hrw⟩ := ha
      exact hunres_c r hr hrw
    · intro r hr n d hd
      have hdmem : d ∈ (s.queues n).waitingConsumers := by
        by_cases hn : n = name
        · subst hn
          rw [updateQueue_same] at hd
          exact hrestmem d hd
        · rwa [updateQueue_other hn] at hd
      rcases List.mem_append.mp hr with h | h
      · exact hInv.resolved_gone r h n d hdmem
      · rw [List.mem_singleton] at h
        subst h
        dsimp only
        by_cases hn : n = name
        · subst hn
          rw [updateQueue_same] at hd
          exact hrestne d hd
        · rw [updateQueue_other hn] at hd
          exact hInv.waiters_disjoint hn hd hc0
    · intro r hr hres
      rcases List.mem_append.mp hr with h | h
      · exact hInv.res_none_time r h hres
      · rw [List.mem_singleton] at h
        subst h
        simp at hres
    · intro wid hwid
      rcases hInv.pending_or_resolved wid hwid with ⟨n, d, hd, hdid⟩ | hres
      · by_cases hn : n = name
        · subst hn
          rw [hw] at hd
          rcases List.mem_cons.mp hd with h1 | h2
          · subst h1
            exact Or.inr ⟨⟨d.timeoutId, some msg, s.now⟩,
              List.mem_append.mpr (Or.inr (List.mem_singleton.mpr (by rw [hdid]))), hdid⟩
          · exact Or.inl ⟨n, d, by rw [updateQueue_same]; exact h2, hdid⟩
        · exact Or.inl ⟨n, d, by rw [updateQueue_other hn]; exact hd, hdid⟩
      · obtain ⟨r, hr, hrw⟩ := hres
        exact Or.inr ⟨r, List.mem_append.mpr (Or.inl hr), hrw⟩
    · exact hInv.wlog_wids
    · intro n
      by_cases hn : n = name
      · subst hn
        rw [updateQueue_same]
        rcases hInv.steady n with hm | hwc
        · exact Or.inl hm
        · rw [hw] at hwc; cases hwc
      · rw [updateQueue_other hn]
        exact hInv.steady n
    · exact hInv.rejects
    · exact hInv.issued

theorem inv_getMessage {s : QueueManager} (hInv : Inv s) (name : String) (timeout : Nat) :
    Inv (s.getMessage name timeout).1 := by
  rcases hm : (s.queues name).messages with _ | ⟨m, rest⟩
  · -- empty backlog: register a waiter and arm the deadline timer
    rw [getMessage_registered hm]
    dsimp only
    have hfreshw : ∀ n d, d ∈ (s.queues n).waitingConsumers → d.timeoutId ≠ s.nextId := by
      intro n d hd heq
      exact absurd (heq ▸ hInv.waiters_lt n d hd) (lt_irrefl s.nextId)
    have hfresht : ∀ t ∈ s.timers, t.timeoutId ≠ s.nextId := by
      intro t ht heq
      exact absurd (heq ▸ hInv.timers_lt t ht) (lt_irrefl s.nextId)
    refine ⟨?_, ?_, ?_, ?_, ?_, ?_, ?_, ?_, ?_, ?_, ?_, ?_, ?_, ?_, ?_, ?_, ?_⟩ <;> dsimp only
    · intro n d hd
      by_cases hn : n = name
      · subst hn
        rw [updateQueue_same] at hd
        rcases List.mem_append.mp hd with h | h
        · exact Nat.lt_succ_of_lt (hInv.waiters_lt n d h)
        · rw [List.mem_singleton] at h
          subst h
          exact Nat.lt_succ_self _
      · rw [updateQueue_other hn] at hd
        exact Nat.lt_succ_of_lt (hInv.waiters_lt n d hd)
    · intro n
      by_cases hn : n = name
      · subst hn
        rw [updateQueue_same]
        dsimp only
        rw [List.map_append, List.nodup_append]
        refine ⟨hInv.waiters_nodup n, by simp, ?_⟩
        intro a ha hb
        simp at hb
        subst hb
        rw [List.mem_map] at ha
        obtain ⟨d, hd, hdw⟩ := ha
        exact hfreshw n d hd hdw
      · rw [updateQueue_other hn]
        exact hInv.waiters_nodup n
    · intro t ht
      rcases List.mem_append.mp ht with h | h
      · exact Nat.lt_succ_of_lt (hInv.timers_lt t h)
      · rw [List.mem_singleton] at h
        subst h
        exact Nat.lt_succ_self _
    · rw [List.map_append, List.nodup_append]
      refine ⟨hInv.timers_nodup, by simp, ?_⟩
      intro a ha hb
      simp at hb
      subst hb
      rw [List.mem_map] at ha
      obtain ⟨t, ht, htw⟩ := ha
      exact hfresht t ht htw
    · intro t ht
      rcases List.mem_append.mp ht with h | h
      · obtain ⟨d, hd, hdid⟩ := hInv.timer_mem t h
        by_cases hq : t.queueName = name
        · rw [hq] at hd ⊢
          rw [updateQueue_same]
          exact ⟨d, List.mem_append.mpr (Or.inl hd), hdid⟩
        · rw [updateQueue_other hq]
          exact ⟨d, hd, hdid⟩
      · rw [List.mem_singleton] at h
        subst h
        dsimp only
        rw [updateQueue_same]
        exact ⟨⟨s.nextId⟩, List.mem_append.mpr (Or.inr (List.mem_singleton.mpr rfl)), rfl⟩
    · intro t ht r hr
      rcases List.mem_append.mp ht with h | h
      · exact hInv.timer_unres t h r hr
      · rw [List.mem_singleton] at h
        subst h
        dsimp only
        intro heq
        exact absurd (heq ▸ hInv.res_lt r hr) (lt_irrefl s.nextId)
    · intro t ht
      rcases List.mem_append.mp ht with h | h
      · obtain ⟨reg, hreg, h1, h2, h3⟩ := hInv.timer_reg t h
        exact ⟨reg, List.mem_append.mpr (Or.inl hreg), h1, h2, h3⟩
      · rw [List.mem_singleton] at h
        subst h
        exact ⟨⟨s.nextId, name, s.now, timeout⟩,
          List.mem_append.mpr (Or.inr (List.mem_singleton.mpr rfl)), rfl, rfl, rfl⟩
    · intro n d hd
      by_cases hn : n = name
      · subst hn
        rw [updateQueue_same] at hd
        rcases List.mem_append.mp hd with h | h
        · obtain ⟨t, ht, htid, htq⟩ := hInv.waiter_timer n d h
          exact ⟨t, List.mem_append.mpr (Or.inl ht), htid, htq⟩
        · rw [List.mem_singleton] at h
          subst h
          exact ⟨⟨s.nextId, n, s.now + timeout⟩,
            List.mem_append.mpr (Or.inr (List.mem_singleton.mpr rfl)), rfl, rfl⟩
      · rw [updateQueue_other hn] at hd
        obtain ⟨t, ht, htid, htq⟩ := hInv.waiter_timer n d hd
        exact ⟨t, List.mem_append.mpr (Or.inl ht), htid, htq⟩
    · intro r hr
      exact Nat.lt_succ_of_lt (hInv.res_lt r hr)
    · exact hInv.res_nodup
    · intro r hr n d hd
      by_cases hn : n = name
      · subst hn
        rw [updateQueue_same] at hd
        rcases List.mem_append.mp hd with h | h
        · exact hInv.resolved_gone r hr n d h
        · rw [List.mem_singleton] at h
          subst h
          dsimp only
          intro heq
          exact absurd (heq ▸ hInv.res_lt r hr) (lt_irrefl s.nextId)
      · rw [updateQueue_other hn] at hd
        exact hInv.resolved_gone r hr n d hd
    · intro r hr hres
      obtain ⟨reg, hreg, h1, h2⟩ := hInv.res_none_time r hr hres
      exact ⟨reg, List.mem_append.mpr (Or.inl hreg), h1, h2⟩
    · intro wid hwid
      rcases Nat.lt_succ_iff_lt_or_eq.mp hwid with h | h
      · rcases hInv.pending_or_resolved wid h with ⟨n, d, hd, hdid⟩ | hres
        · left
          by_cases hn : n = name
          · subst hn
            exact ⟨n, d, by rw [updateQueue_same]; exact List.mem_append.mpr (Or.inl hd), hdid⟩
          · exact ⟨n, d, by rw [updateQueue_other hn]; exact hd, hdid⟩
        · exact Or.inr hres
      · subst h
        left
        refine ⟨name, ⟨s.nextId⟩, ?_, rfl⟩
        rw [updateQueue_same]
        exact List.mem_append.mpr (Or.inr (List.mem_singleton.mpr rfl))
    · rw [List.map_append, hInv.wlog_wids]
      exact (List.range_succ s.nextId).symm
    · intro n
      by_cases hn : n = name
      · subst hn
        rw [updateQueue_same]
        exact Or.inl rfl
      · rw [updateQueue_other hn]
        exact hInv.steady n
    · exact hInv.rejects
    · exact hInv.issued
  · -- non-empty backlog: pop the head
    rw [getMessage_immediate hm]
    dsimp only
    refine ⟨?_, ?_, ?_, ?_, ?_, ?_, ?_, ?_, ?_, ?_, ?_, ?_, ?_, ?_, ?_, ?_, ?_⟩ <;> dsimp only
    · intro n d hd
      by_cases hn : n = name
      · subst hn
        rw [updateQueue_same] at hd
        exact hInv.waiters_lt n d hd
      · rw [updateQueue_other hn] at hd
        exact hInv.waiters_lt n d hd
    · intro n
      by_cases hn : n = name
      · subst hn
        rw [updateQueue_same]
        exact hInv.waiters_nodup n
      · rw [updateQueue_other hn]
        exact hInv.waiters_nodup n
    · exact hInv.timers_lt
    · exact hInv.timers_nodup
    · intro t ht
      obtain ⟨d, hd, hdid⟩ := hInv.timer_mem t ht
      by_cases hq : t.queueName = name
      · rw [hq] at hd ⊢
        rw [updateQueue_same]
        exact ⟨d, hd, hdid⟩
      · rw [updateQueue_other hq]
        exact ⟨d, hd, hdid⟩
    · exact hInv.timer_unres
    · exact hInv.timer_reg
    · intro n d hd
      by_cases hn : n = name
      · subst hn
        rw [updateQueue_same] at hd
        exact hInv.waiter_timer n d hd
      · rw [updateQueue_other hn] at hd
        exact hInv.waiter_timer n d hd
    · exact hInv.res_lt
    · exact hInv.res_nodup
    · intro r hr n d hd
      by_cases hn : n = name
      · subst hn
        rw [updateQueue_same] at hd
        exact hInv.resolved_gone r hr n d hd
      · rw [updateQueue_other hn] at hd
        exact hInv.resolved_gone r hr n d hd
    · exact hInv.res_none_time
    · intro wid hwid
      rcases hInv.pending_or_resolved wid hwid with ⟨n, d, hd, hdid⟩ | hres
      · left
        by_cases hn : n = name
        · subst hn
          exact ⟨n, d, by rw [updateQueue_same]; exact hd, hdid⟩
        · exact ⟨n, d, by rw [updateQueue_other hn]; exact hd, hdid⟩
      · exact Or.inr hres
    · exact hInv.wlog_wids
    · intro n
      by_cases hn : n = name
      · subst hn
        rw [updateQueue_same]
        rcases hInv.steady n with hmm | hwc
        · rw [hm] at hmm; cases hmm
        · exact Or.inr hwc
      · rw [updateQueue_other hn]
        exact hInv.steady n
    · exact hInv.rejects
    · exact hInv.issued

theorem inv_submit_pre {s : QueueManager} (hInv : Inv s) :
    Inv { s with nextMsgId := s.nextMsgId + 1, issuedIds := s.issuedIds ++ [s.nextMsgId] } :=
  ⟨hInv.waiters_lt, hInv.waiters_nodup, hInv.timers_lt, hInv.timers_nodup,
    hInv.timer_mem, hInv.timer_unres, hInv.timer_reg, hInv.waiter_timer,
    hInv.res_lt, hInv.res_nodup, hInv.resolved_gone, hInv.res_none_time,
    hInv.pending_or_resolved, hInv.wlog_wids, hInv.steady, hInv.rejects,
    by dsimp only; rw [hInv.issued]; exact (List.range_succ s.nextMsgId).symm⟩

theorem inv_submit {s : QueueManager} (hInv : Inv s) (name content : String) :
    Inv (s.submit name content).1 :=
  inv_addMessage (inv_submit_pre hInv) name _

theorem inv_fire {s s' : QueueManager} (hInv : Inv s) {wid : Nat}
    (h : s.step (Ev.fire wid) = some s') : Inv s' := by
  simp only [QueueManager.step] at h
  rcases hfind : s.timers.find? (fun u => u.timeoutId == wid) with _ | t
  · rw [hfind] at h; cases h
  · rw [hfind] at h
    dsimp only at h
    by_cases hdl : t.deadline ≤ s.now
    · rw [if_pos hdl] at h
      injection h with h
      subst h
      have ht : t ∈ s.timers := List.mem_of_find?_eq_some hfind
      have hti : t.timeoutId = wid := by
        have := List.find?_some hfind
        simpa using this
      have hmem0 : ∃ c ∈ (s.queues t.queueName).waitingConsumers, c.timeoutId = wid := by
        obtain ⟨c, hc, hcid⟩ := hInv.timer_mem t ht
        exact ⟨c, hc, by rw [hcid, hti]⟩
      have hunres0 : ∀ r ∈ s.resolutions, r.wid ≠ wid := by
        intro r hr heq
        exact hInv.timer_unres t ht r hr (heq.trans hti.symm)
      have hother : ∀ n, n ≠ t.queueName →
          ∀ d ∈ (s.queues n).waitingConsumers, d.timeoutId ≠ wid := by
        intro n hn d hd heq
        obtain ⟨u, hu, huid, huq⟩ := hInv.waiter_timer n d hd
        have hut : u = t :=
          List.inj_on_of_nodup_map hInv.timers_nodup hu ht (by rw [huid, heq, hti])
        rw [hut] at huq
        exact hn huq.symm
      have hnd2 : ((({ s with timers := s.timers.filter (fun u => u.timeoutId ≠ wid) } :
          QueueManager).queues t.queueName).waitingConsumers.map
          WaitingConsumer.timeoutId).Nodup :=
        hInv.waiters_nodup t.queueName
      have hmem2 : ∃ c ∈ (({ s with
          timers := s.timers.filter (fun u => u.timeoutId ≠ wid) } :
          QueueManager).queues t.queueName).waitingConsumers, c.timeoutId = wid := hmem0
      have hunres2 : ∀ r ∈ ({ s with
          timers := s.timers.filter (fun u => u.timeoutId ≠ wid) } :
          QueueManager).resolutions, r.wid ≠ wid := hunres0
      rw [timeoutCallback_found hnd2 hmem2 hunres2]
      refine ⟨?_, ?_, ?_, ?_, ?_, ?_, ?_, ?_, ?_, ?_, ?_, ?_, ?_, ?_, ?_, ?_, ?_⟩ <;> dsimp only
      · intro n d hd
        by_cases hn : n = t.queueName
        · subst hn
          rw [updateQueue_same] at hd
          exact hInv.waiters_lt t.queueName d (List.mem_of_mem_filter hd)
        · rw [updateQueue_other hn] at hd
          exact hInv.waiters_lt n d hd
      · intro n
        by_cases hn : n = t.queueName
        · subst hn
          rw [updateQueue_same]
          exact ((List.filter_sublist _).map _).nodup (hInv.waiters_nodup t.queueName)
        · rw [updateQueue_other hn]
          exact hInv.waiters_nodup n
      · intro u hu
        exact hInv.timers_lt u (List.mem_of_mem_filter hu)
      · exact ((List.filter_sublist _).map _).nodup hInv.timers_nodup
      · intro u hu
        have hum := List.mem_of_mem_filter hu
        have hune : u.timeoutId ≠ wid := by
          have := (List.mem_filter.mp hu).2
          simpa using this
        obtain ⟨d, hd, hdid⟩ := hInv.timer_mem u hum
        by_cases hq : u.queueName = t.queueName
        · rw [hq] at hd ⊢
          rw [updateQueue_same]
          refine ⟨d, List.mem_filter.mpr ⟨hd, ?_⟩, hdid⟩
          simp [hdid, hune]
        · rw [updateQueue_other hq]
          exact ⟨d, hd, hdid⟩
      · intro u hu r hr
        have hum := List.mem_of_mem_filter hu
        have hune : u.timeoutId ≠ wid := by
          have := (List.mem_filter.mp hu).2
          simpa using this
        rcases List.mem_append.mp hr with hro | hrn
        · exact hInv.timer_unres u hum r hro
        · rw [List.mem_singleton] at hrn
          subst hrn
          exact fun heq => hune heq.symm
      · intro u hu
        exact hInv.timer_reg u (List.mem_of_mem_filter hu)
      · intro n d hd
        by_cases hn : n = t.queueName
        · subst hn
          rw [updateQueue_same] at hd
          have hdm := List.mem_of_mem_filter hd
          have hdne : d.timeoutId ≠ wid := by
            have := (List.mem_filter.mp hd).2
            simpa using this
          obtain ⟨u, hu, huid, huq⟩ := hInv.waiter_timer t.queueName d hdm
          refine ⟨u, List.mem_filter.mpr ⟨hu, ?_⟩, huid, huq⟩
          simp [huid, hdne]
        · rw [updateQueue_other hn] at hd
          obtain ⟨u, hu, huid, huq⟩ := hInv.waiter_timer n d hd
          refine ⟨u, List.mem_filter.mpr ⟨hu, ?_⟩, huid, huq⟩
          simp [huid]
          exact hother n hn d hd
      · intro r hr
        rcases List.mem_append.mp hr with hro | hrn
        · exact hInv.res_lt r hro
        · rw [List.mem_singleton] at hrn
          subst hrn
          dsimp only
          rw [← hti]
          exact hInv.timers_lt t ht
      · rw [List.map_append, List.nodup_append]
        refine ⟨hInv.res_nodup, by simp, ?_⟩
        intro a ha hb
        simp at hb
        subst hb
        rw [List.mem_map] at ha
        obtain ⟨r, hr, hrw⟩ := ha
        exact hunres0 r hr hrw
      · intro r hr n d hd
        have hdm : d ∈ (s.queues n).waitingConsumers := by
          by_cases hn : n = t.queueName
          · subst hn
            rw [updateQueue_same] at hd
            exact List.mem_of_mem_filter hd
          · rwa [updateQueue_other hn] at hd
        rcases List.mem_append.mp hr with hro | hrn
        · exact hInv.resolved_gone r hro n d hdm
        · rw [List.mem_singleton] at hrn
          subst hrn
          dsimp only
          by_cases hn : n = t.queueName
          · subst hn
            rw [updateQueue_same] at hd
            have := (List.mem_filter.mp hd).2
            simpa using this
          · exact hother n hn d hdm
      · intro r hr hres
        rcases List.mem_append.mp hr with hro | hrn
        · exact hInv.res_none_time r hro hres
        · rw [List.mem_singleton] at hrn
          subst hrn
          obtain ⟨reg, hreg, hw1, hw2, hw3⟩ := hInv.timer_reg t ht
          refine ⟨reg, hreg, by rw [hw1, hti], ?_⟩
          dsimp only
          rw [← hw3]
          exact hdl
      · intro w hw
        rcases hInv.pending_or_resolved w hw with ⟨n, d, hd, hdid⟩ | hres
        · by_cases hdW : d.timeoutId = wid
          · refine Or.inr ⟨⟨wid, none, s.now⟩,
              List.mem_append.mpr (Or.inr (List.mem_singleton.mpr rfl)), ?_⟩
            dsimp only
            rw [← hdW, hdid]
          · left
            by_cases hn : n = t.queueName
            · subst hn
              refine ⟨t.queueName, d, ?_, hdid⟩
              rw [updateQueue_same]
              exact List.mem_filter.mpr ⟨hd, by simp [hdW]⟩
            · exact ⟨n, d, by rw [updateQueue_other hn]; exact hd, hdid⟩
        · obtain ⟨r, hr, hrw⟩ := hres
          exact Or.inr ⟨r, List.mem_append.mpr (Or.inl hr), hrw⟩
      · exact hInv.wlog_wids
      · intro n
        by_cases hn : n = t.queueName
        · subst hn
          rw [updateQueue_same]
          rcases hInv.steady t.queueName with hms | hwc
          · exact Or.inl hms
          · right
            rw [hwc]
            simp
        · rw [updateQueue_other hn]
          exact hInv.steady n
      · exact hInv.rejects
      · exact hInv.issued
    · rw [if_neg hdl] at h; cases h

theorem inv_step {s s' : QueueManager} (hInv : Inv s) {e : Ev}
    (h : s.step e = some s') : Inv s' := by
  cases e with
  | submit n c =>
      simp only [QueueManager.step] at h
      injection h with h
      subst h
      exact inv_submit hInv n c
  | receive n t =>
      simp only [QueueManager.step] at h
      injection h with h
      subst h
      exact inv_getMessage hInv n t
  | tick d =>
      simp only [QueueManager.step] at h
      injection h with h
      subst h
      exact inv_tick hInv d
  | fire wid => exact inv_fire hInv h

theorem run_inv {evs : List Ev} :
    ∀ {s s' : QueueManager}, Inv s → run s evs = some s' → Inv s' := by
  induction evs with
  | nil =>
      intro s s' hInv h
      simp only [run] at h
      injection h with h
      subst h
      exact hInv
  | cons e es ih =>
      intro s s' hInv h
      simp only [run] at h
      rcases hstep : s.step e with _ | s1
      · rw [hstep] at h; cases h
      · rw [hstep] at h
        dsimp only at h
        exact ih (inv_step hInv hstep) h

theorem reachable_inv {s : QueueManager} (h : Reachable s) : Inv s := by
  obtain ⟨evs, hrun⟩ := h
  exact run_inv inv_init hrun

theorem promiseResolve_queues (s : QueueManager) (wid : Nat) (r : Option Message) :
    (s.promiseResolve wid r).queues = s.queues := by
  unfold QueueManager.promiseResolve
  by_cases h : s.resolutions.any (fun x => x.wid == wid) <;> simp [h]

theorem promiseResolve_timers (s : QueueManager) (wid : Nat) (r : Option Message) :
    (s.promiseResolve wid r).timers = s.timers := by
  unfold QueueManager.promiseResolve
  by_cases h : s.resolutions.any (fun x => x.wid == wid) <;> simp [h]

theorem promiseResolve_now (s : QueueManager) (wid : Nat) (r : Option Message) :
    (s.promiseResolve wid r).now = s.now := by
  unfold QueueManager.promiseResolve
  by_cases h : s.resolutions.any (fun x => x.wid == wid) <;> simp [h]

theorem promiseResolve_nextId (s : QueueManager) (wid : Nat) (r : Option Message) :
    (s.promiseResolve wid r).nextId = s.nextId := by
  unfold QueueManager.promiseResolve
  by_cases h : s.resolutions.any (fun x => x.wid == wid) <;> simp [h]

theorem promiseResolve_rejectLog (s : QueueManager) (wid : Nat) (r : Option Message) :
    (s.promiseResolve wid r).rejectLog = s.rejectLog := by
  unfold QueueManager.promiseResolve
  by_cases h : s.resolutions.any (fun x => x.wid == wid) <;> simp [h]

theorem timeoutCallback_timers (s : QueueManager) (name : String) (wid : Nat) :
    (s.timeoutCallback name wid).timers = s.timers := by
  unfold QueueManager.timeoutCallback
  rw [promiseResolve_timers]
  split <;> rfl

theorem timeoutCallback_now (s : QueueManager) (name : String) (wid : Nat) :
    (s.timeoutCallback name wid).now = s.now := by
  unfold QueueManager.timeoutCallback
  rw [promiseResolve_now]
  split <;> rfl

theorem timeoutCallback_nextId (s : QueueManager) (name : String) (wid : Nat) :
    (s.timeoutCallback name wid).nextId = s.nextId := by
  unfold QueueManager.timeoutCallback
  rw [promiseResolve_nextId]
  split <;> rfl

theorem all_resolved_of_no_timers {s : QueueManager} (hInv : Inv s) (hT : s.timers = []) :
    ∀ wid < s.nextId, (s.resolutions.filter (fun r => r.wid == wid)).length = 1 := by
  intro wid hw
  rcases hInv.pending_or_resolved wid hw with ⟨n, d, hd, hdid⟩ | hres
  · obtain ⟨t, ht, _, _⟩ := hInv.waiter_timer n d hd
    rw [hT] at ht
    cases ht
  · exact filter_wid_len_eq_one hInv.res_nodup hres

theorem fire_all : ∀ (k : Nat) {s : QueueManager}, Inv s → s.timers.length ≤ k →
    (∀ t ∈ s.timers, t.deadline ≤ s.now) →
    ∃ evs s', run s evs = some s' ∧ s'.timers = [] ∧ s'.nextId = s.nextId ∧ Inv s' := by
  intro k
  induction k with
  | zero =>
      intro s hInv hlen _
      have hT : s.timers = [] := List.eq_nil_of_length_eq_zero (Nat.le_zero.mp hlen)
      exact ⟨[], s, rfl, hT, rfl, hInv⟩
  | succ k ih =>
      intro s hInv hlen hdl
      rcases hT : s.timers with _ | ⟨t, rest⟩
      · exact ⟨[], s, rfl, hT, rfl, hInv⟩
      · have ht : t ∈ s.timers := by rw [hT]; exact List.mem_cons_self t rest
        have hstep := step_fire_eq hInv.timers_nodup ht rfl (hdl t ht)
        have hInv1 := inv_fire hInv hstep
        have hrestnd : ∀ u ∈ rest, u.timeoutId ≠ t.timeoutId := by
          have := hInv.timers_nodup
          rw [hT] at this
          exact nodup_map_head Timer.timeoutId this
        have hfilter : s.timers.filter (fun u => u.timeoutId ≠ t.timeoutId) = rest := by
          rw [hT, List.filter_cons]
          rw [if_neg (by simp)]
          rw [List.filter_eq_self]
          intro u hu
          simp [hrestnd u hu]
        have htimers1 : (QueueManager.timeoutCallback
            { s with timers := s.timers.filter (fun u => u.timeoutId ≠ t.timeoutId) }
            t.queueName t.timeoutId).timers = rest := by
          rw [timeoutCallback_timers]
          exact hfilter
        have hnow1 : (QueueManager.timeoutCallback
            { s with timers := s.timers.filter (fun u => u.timeoutId ≠ t.timeoutId) }
            t.queueName t.timeoutId).now = s.now := by
          rw [timeoutCallback_now]
        have hnid1 : (QueueManager.timeoutCallback
            { s with timers := s.timers.filter (fun u => u.timeoutId ≠ t.timeoutId) }
            t.queueName t.timeoutId).nextId = s.nextId := by
          rw [timeoutCallback_nextId]
        obtain ⟨evs, s', hrun, h1, h2, h3⟩ := ih hInv1
          (by
            rw [htimers1]
            have : s.timers.length = rest.length + 1 := by rw [hT]; rfl
            omega)
          (by
            intro u hu
            rw [htimers1] at hu
            rw [hnow1]
            exact hdl u (by rw [hT]; exact List.mem_cons_of_mem t hu))
        refine ⟨Ev.fire t.timeoutId :: evs, s', ?_, h1, by rw [h2, hnid1], h3⟩
        simp only [run]
        rw [hstep]
        exact hrun

theorem complete_from (s : QueueManager) (hInv : Inv s) :
    ∃ evs s', run s evs = some s' ∧ s'.timers = [] ∧ s'.nextId = s.nextId ∧ Inv s' := by
  have hstep : s.step (Ev.tick (s.timers.map Timer.deadline).sum) =
      some { s with now := s.now + (s.timers.map Timer.deadline).sum } := rfl
  have hInv2 := inv_tick hInv (s.timers.map Timer.deadline).sum
  obtain ⟨evs, s', hrun, h1, h2, h3⟩ := fire_all
    ({ s with now := s.now + (s.timers.map Timer.deadline).sum }).timers.length hInv2
    (le_refl _)
    (by
      intro t ht
      dsimp only at ht ⊢
      have hle : t.deadline ≤ (s.timers.map Timer.deadline).sum :=
        List.single_le_sum (by intro x _; exact Nat.zero_le x) _
          (List.mem_map_of_mem Timer.deadline ht)
      omega)
  refine ⟨Ev.tick (s.timers.map Timer.deadline).sum :: evs, s', ?_, h1, h2, h3⟩
  simp only [run]
  rw [hstep]
  exact hrun

theorem promiseResolve_issuedIds (s : QueueManager) (wid : Nat) (r : Option Message) :
    (s.promiseResolve wid r).issuedIds = s.issuedIds := by
  unfold QueueManager.promiseResolve
  by_cases h : s.resolutions.any (fun x => x.wid == wid) <;> simp [h]

theorem addMessage_queues_other {s : QueueManager} {name : String} {msg : Message}
    {m : String} (h : m ≠ name) :
    (s.addMessage name msg).queues m = s.queues m := by
  simp only [QueueManager.addMessage]
  split
  · unfold QueueManager.consumerResolve
    rw [promiseResolve_queues]
    exact updateQueue_other h
  · exact updateQueue_other h

theorem addMessage_issuedIds (s : QueueManager) (name : String) (msg : Message) :
    (s.addMessage name msg).issuedIds = s.issuedIds := by
  simp only [QueueManager.addMessage]
  split
  · unfold QueueManager.consumerResolve
    rw [promiseResolve_issuedIds]
    rfl
  · rfl

theorem getMessage_queues_other {s : QueueManager} {name : String} {timeout : Nat}
    {m : String} (h : m ≠ name) :
    ((s.getMessage name timeout).1).queues m = s.queues m := by
  rcases hm : (s.queues name).messages with _ | ⟨x, rest⟩
  · rw [getMessage_registered hm]
    dsimp only
    rw [updateQueue_other h]
  · rw [getMessage_immediate hm]
    dsimp only
    rw [updateQueue_other h]

theorem timeoutCallback_queues_other {s : QueueManager} {name : String} {wid : Nat}
    {m : String} (h : m ≠ name) :
    (s.timeoutCallback name wid).queues m = s.queues m := by
  unfold QueueManager.timeoutCallback
  rw [promiseResolve_queues]
  split
  · exact updateQueue_other h
  · rfl

theorem submit_queues_other {s : QueueManager} {name content : String}
    {m : String} (h : m ≠ name) :
    ((s.submit name content).1).queues m = s.queues m :=
  addMessage_queues_other h

theorem submitList_spec (name : String) :
    ∀ (L : List String) (s : QueueManager), (s.queues name).waitingConsumers = [] →
    ((submitList s name L).queues name).waitingConsumers = [] ∧
    ((submitList s name L).queues name).messages.map Message.content =
      (s.queues name).messages.map Message.content ++ L := by
  intro L
  induction L with
  | nil =>
      intro s hw
      exact ⟨hw, by simp [submitList]⟩
  | cons c cs ih =>
      intro s hw
      have hsub : (s.submit name c).1 =
          QueueManager.addMessage
            { s with
                nextMsgId := s.nextMsgId + 1
                issuedIds := s.issuedIds ++ [s.nextMsgId] }
            name ⟨s.nextMsgId, c, s.now⟩ := rfl
      have hw1 : (QueueManager.queues
          { s with
              nextMsgId := s.nextMsgId + 1
              issuedIds := s.issuedIds ++ [s.nextMsgId] }
          name).waitingConsumers = [] := hw
      have hw2 : (((s.submit name c).1).queues name).waitingConsumers = [] := by
        rw [hsub, addMessage_enqueue hw1]
        dsimp only
        rw [updateQueue_same]
      have hm2 : (((s.submit name c).1).queues name).messages.map Message.content =
          (s.queues name).messages.map Message.content ++ [c] := by
        rw [hsub, addMessage_enqueue hw1]
        dsimp only
        rw [updateQueue_same]
        dsimp only
        rw [List.map_append]
        rfl
      obtain ⟨h1, h2⟩ := ih ((s.submit name c).1) hw2
      refine ⟨h1, ?_⟩
      show ((submitList (s.submit name c).1 name cs).queues name).messages.map Message.content =
        (s.queues name).messages.map Message.content ++ (c :: cs)
      rw [h2, hm2]
      simp

theorem drain_spec (name : String) :
    ∀ (M : List Message) (s : QueueManager), (s.queues name).messages = M →
    drain s name M.length = M.map (fun m => some m.content) := by
  intro M
  induction M with
  | nil =>
      intro s _
      simp [drain]
  | cons m rest ih =>
      intro s hm
      show drain s name (rest.length + 1) = some m.content :: rest.map (fun m => some m.content)
      simp only [drain]
      rw [getMessage_immediate hm]
      dsimp only
      congr 1
      apply ih
      dsimp only
      rw [updateQueue_same]

/-!  ## Claim theorems  -/

/-- C1: every waiter created by `getMessage` on an empty backlog is resolved
at most once in any reachable state (a JS promise settles once, and delivery
and expiry both remove the waiter from the list first), and the run can
always be extended (letting the remaining deadlines fire) so that every
registered waiter is resolved exactly once — delivered a message (`some`) or
timed out (`none`) — never both and never neither. -/
theorem waiter_resolved_exactly_once (s : QueueManager) (h : Reachable s) :
    (∀ wid : Nat, (s.resolutions.filter (fun r => r.wid == wid)).length ≤ 1) ∧
    (∃ evs s', run s evs = some s' ∧ s'.nextId = s.nextId ∧
      ∀ wid < s.nextId, (s'.resolutions.filter (fun r => r.wid == wid)).length = 1) := by
  have hInv := reachable_inv h
  refine ⟨fun wid => filter_wid_len_le_one hInv.res_nodup wid, ?_⟩
  obtain ⟨evs, s', hrun, hT, hnid, hInv'⟩ := complete_from s hInv
  refine ⟨evs, s', hrun, hnid, ?_⟩
  intro wid hw
  exact all_resolved_of_no_timers hInv' hT wid (by rw [hnid]; exact hw)

theorem waiter_resolved_exactly_once_witness :
    (∀ wid : Nat,
      ((runD [Ev.receive "a" 5]).resolutions.filter (fun r => r.wid == wid)).length ≤ 1) ∧
    (∃ evs s', run (runD [Ev.receive "a" 5]) evs = some s' ∧
      s'.nextId = (runD [Ev.receive "a" 5]).nextId ∧
      ∀ wid < (runD [Ev.receive "a" 5]).nextId,
        (s'.resolutions.filter (fun r => r.wid == wid)).length = 1) :=
  waiter_resolved_exactly_once (runD [Ev.receive "a" 5]) ⟨[Ev.receive "a" 5], rfl⟩

/-- C2: with no concurrent waiters and an initially empty backlog, a
sequence of submits followed by as many receives returns exactly the
submitted payloads in submission order; `addMessage` appends at the tail of
the backlog when nobody waits, and `getMessage` removes from the head. -/
theorem fifo_submit_then_receive (s : QueueManager) (name : String) (L : List String)
    (hw : (s.queues name).waitingConsumers = []) (hm : (s.queues name).messages = []) :
    drain (submitList s name L) name L.length = L.map some ∧
    (∀ msg, ((s.addMessage name msg).queues name).messages
      = (s.queues name).messages ++ [msg]) ∧
    (∀ (s2 : QueueManager) (timeout : Nat) (m : Message) (rest : List Message),
      (s2.queues name).messages = m :: rest →
      s2.getMessage name timeout =
        ({ s2 with
            queues := updateQueue s2.queues name ⟨rest, (s2.queues name).waitingConsumers⟩ },
          GetOutcome.immediate m)) := by
  refine ⟨?_, ?_, fun s2 timeout m rest hm2 => getMessage_immediate hm2⟩
  · obtain ⟨h1, h2⟩ := submitList_spec name L s hw
    rw [hm] at h2
    simp only [List.map_nil, List.nil_append] at h2
    have hlen : ((submitList s name L).queues name).messages.length = L.length := by
      conv_rhs => rw [← h2]
      rw [List.length_map]
    have hd := drain_spec name ((submitList s name L).queues name).messages
      (submitList s name L) rfl
    rw [hlen] at hd
    rw [hd]
    have hmm : List.map (fun m => some m.content) ((submitList s name L).queues name).messages
        = (((submitList s name L).queues name).messages.map Message.content).map some := by
      rw [List.map_map]
      rfl
    rw [hmm, h2]
  · intro msg
    rw [addMessage_enqueue hw]
    dsimp only
    rw [updateQueue_same]

theorem fifo_submit_then_receive_witness :
    drain (submitList initState "orders" ["Order 1", "Order 2", "Order 3"]) "orders" 3 =
      [some "Order 1", some "Order 2", some "Order 3"] :=
  (fifo_submit_then_receive initState "orders" ["Order 1", "Order 2", "Order 3"] rfl rfl).1

/-- C3: when `addMessage` finds a non-empty waiter list it removes exactly
the oldest waiter, cancels that waiter's deadline timer, resolves its
promise with the message, leaves the backlog untouched, keeps the remaining
waiters in order, and leaves every other queue unchanged. -/
theorem submit_delivers_to_oldest_waiter (s : QueueManager) (h : Reachable s)
    (name : String) (msg : Message) (c : WaitingConsumer) (rest : List WaitingConsumer)
    (hw : (s.queues name).waitingConsumers = c :: rest) :
    ((s.addMessage name msg).queues name).waitingConsumers = rest ∧
    ((s.addMessage name msg).queues name).messages = (s.queues name).messages ∧
    (s.addMessage name msg).timers = s.timers.filter (fun t => t.timeoutId ≠ c.timeoutId) ∧
    (s.addMessage name msg).resolutions = s.resolutions ++ [⟨c.timeoutId, some msg, s.now⟩] ∧
    ∀ m, m ≠ name → (s.addMessage name msg).queues m = s.queues m := by
  have hInv := reachable_inv h
  have hc0 : c ∈ (s.queues name).waitingConsumers := by
    rw [hw]; exact List.mem_cons_self c rest
  have hunres := hInv.waiter_unres hc0
  rw [addMessage_deliver hw hunres]
  refine ⟨?_, ?_, rfl, rfl, ?_⟩
  · dsimp only
    rw [updateQueue_same]
  · dsimp only
    rw [updateQueue_same]
  · intro m hm
    dsimp only
    rw [updateQueue_other hm]

theorem submit_delivers_to_oldest_waiter_witness :
    (((runD [Ev.receive "a" 100]).addMessage "a" ⟨5, "m", 0⟩).queues "a").waitingConsumers
      = [] :=
  (submit_delivers_to_oldest_waiter (runD [Ev.receive "a" 100])
    ⟨[Ev.receive "a" 100], rfl⟩ "a" ⟨5, "m", 0⟩ ⟨0⟩ [] rfl).1

/-- C4: in every reachable state no queue has both a non-empty backlog and
a non-empty waiter list: `addMessage` enqueues only when no waiter exists
and `getMessage` registers a waiter only when the backlog is empty. -/
theorem backlog_or_waiters_empty (s : QueueManager) (h : Reachable s) (name : String) :
    (s.queues name).messages = [] ∨ (s.queues name).waitingConsumers = [] :=
  (reachable_inv h).steady name

theorem backlog_or_waiters_empty_witness :
    ((runD [Ev.submit "a" "x", Ev.receive "b" 9]).queues "a").messages = [] ∨
    ((runD [Ev.submit "a" "x", Ev.receive "b" 9]).queues "a").waitingConsumers = [] :=
  backlog_or_waiters_empty (runD [Ev.submit "a" "x", Ev.receive "b" 9])
    ⟨[Ev.submit "a" "x", Ev.receive "b" 9], rfl⟩ "a"

/-- C5: removal from the waiter list is the sole arbitration point.  In a
reachable state every still-pending timer's waiter is still in its queue's
list and unresolved (so the expiry path, like the delivery path, resolves
only after successfully removing the waiter); the timeout callback run
against a state where the waiter is already gone and already resolved is a
complete no-op; and `addMessage` adds no resolution when it removes no
waiter. -/
theorem removal_is_sole_arbitration (s : QueueManager) (h : Reachable s) :
    (∀ t ∈ s.timers,
      (∃ c ∈ (s.queues t.queueName).waitingConsumers, c.timeoutId = t.timeoutId) ∧
      ∀ r ∈ s.resolutions, r.wid ≠ t.timeoutId) ∧
    (∀ name wid, (∀ c ∈ (s.queues name).waitingConsumers, c.timeoutId ≠ wid) →
      (∃ x ∈ s.resolutions, x.wid = wid) → s.timeoutCallback name wid = s) ∧
    (∀ name msg, (s.queues name).waitingConsumers = [] →
      (s.addMessage name msg).resolutions = s.resolutions) := by
  have hInv := reachable_inv h
  refine ⟨fun t ht => ⟨hInv.timer_mem t ht, hInv.timer_unres t ht⟩,
    fun name wid habs hres => timeoutCallback_absent habs hres,
    fun name msg hw => ?_⟩
  rw [addMessage_enqueue hw]

theorem removal_is_sole_arbitration_witness :
    (runD [Ev.receive "a" 2, Ev.tick 5, Ev.fire 0]).timeoutCallback "a" 0 =
      runD [Ev.receive "a" 2, Ev.tick 5, Ev.fire 0] :=
  (removal_is_sole_arbitration (runD [Ev.receive "a" 2, Ev.tick 5, Ev.fire 0])
    ⟨[Ev.receive "a" 2, Ev.tick 5, Ev.fire 0], rfl⟩).2.1 "a" 0 (by decide) (by decide)

/-- C6: a `none` resolution (timeout) is never recorded before the waiter's
registration time plus its timeout duration; a resolved waiter is no longer
in any waiter list; an expired pending timer can fire and then records the
`none` resolution; and a subsequent `addMessage` never adds a resolution
for an already-resolved waiter. -/
theorem timeout_expiry_exact (s : QueueManager) (h : Reachable s) :
    (∀ r ∈ s.resolutions, r.result = none →
      ∃ reg ∈ s.waiterLog, reg.wid = r.wid ∧
        reg.registeredAt + reg.timeoutDuration ≤ r.time) ∧
    (∀ r ∈ s.resolutions, ∀ n, ∀ c ∈ (s.queues n).waitingConsumers,
      c.timeoutId ≠ r.wid) ∧
    (∀ t ∈ s.timers, t.deadline ≤ s.now →
      ∃ s', s.step (Ev.fire t.timeoutId) = some s' ∧
        (⟨t.timeoutId, none, s.now⟩ : Resolution) ∈ s'.resolutions) ∧
    (∀ r ∈ s.resolutions, ∀ name msg,
      (s.addMessage name msg).resolutions.filter (fun x => x.wid == r.wid) =
        s.resolutions.filter (fun x => x.wid == r.wid)) := by
  have hInv := reachable_inv h
  refine ⟨hInv.res_none_time, hInv.resolved_gone, ?_, ?_⟩
  · intro t ht hdl
    have hstep := step_fire_eq hInv.timers_nodup ht rfl hdl
    have hmem0 : ∃ c ∈ (s.queues t.queueName).waitingConsumers, c.timeoutId = t.timeoutId :=
      hInv.timer_mem t ht
    have hunres0 : ∀ r ∈ s.resolutions, r.wid ≠ t.timeoutId :=
      fun r hr => hInv.timer_unres t ht r hr
    have hnd2 : ((({ s with
        timers := s.timers.filter (fun u => u.timeoutId ≠ t.timeoutId) } :
        QueueManager).queues t.queueName).waitingConsumers.map
        WaitingConsumer.timeoutId).Nodup := hInv.waiters_nodup t.queueName
    have hmem2 : ∃ c ∈ (({ s with
        timers := s.timers.filter (fun u => u.timeoutId ≠ t.timeoutId) } :
        QueueManager).queues t.queueName).waitingConsumers, c.timeoutId = t.timeoutId :=
      hmem0
    have hunres2 : ∀ r ∈ ({ s with
        timers := s.timers.filter (fun u => u.timeoutId ≠ t.timeoutId) } :
        QueueManager).resolutions, r.wid ≠ t.timeoutId := hunres0
    refine ⟨_, hstep, ?_⟩
    rw [timeoutCallback_found hnd2 hmem2 hunres2]
    dsimp only
    exact List.mem_append.mpr (Or.inr (List.mem_singleton.mpr rfl))
  · intro r hr name msg
    rcases hw : (s.queues name).waitingConsumers with _ | ⟨c, rest⟩
    · rw [addMessage_enqueue hw]
    · have hc0 : c ∈ (s.queues name).waitingConsumers := by
        rw [hw]; exact List.mem_cons_self c rest
      have hcne : c.timeoutId ≠ r.wid := hInv.resolved_gone r hr name c hc0
      rw [addMessage_deliver hw (hInv.waiter_unres hc0)]
      dsimp only
      rw [List.filter_append]
      have hsing : List.filter (fun x => x.wid == r.wid)
          ([⟨c.timeoutId, some msg, s.now⟩] : List Resolution) = [] := by
        simp [hcne]
      rw [hsing, List.append_nil]

theorem timeout_expiry_exact_witness :
    ∃ s', (runD [Ev.receive "a" 2, Ev.tick 5]).step (Ev.fire 0) = some s' ∧
      (⟨0, none, 5⟩ : Resolution) ∈ s'.resolutions :=
  (timeout_expiry_exact (runD [Ev.receive "a" 2, Ev.tick 5])
    ⟨[Ev.receive "a" 2, Ev.tick 5], rfl⟩).2.2.1 ⟨0, "a", 2⟩ (by decide) (by decide)

/-- C7: queue names are isolated — `addMessage`, `getMessage`, the timeout
callback and `submit` on queue `a` leave queue `b`'s entry (backlog and
waiter list) untouched, and a submit to `a` never resolves a waiter of
`b`. -/
theorem queue_isolation (s : QueueManager) (h : Reachable s) (a b : String)
    (hab : a ≠ b) :
    (∀ msg, (s.addMessage a msg).queues b = s.queues b) ∧
    (∀ timeout, ((s.getMessage a timeout).1).queues b = s.queues b) ∧
    (∀ wid, (s.timeoutCallback a wid).queues b = s.queues b) ∧
    (∀ content, ((s.submit a content).1).queues b = s.queues b) ∧
    (∀ msg, ∀ c ∈ (s.queues b).waitingConsumers,
      (s.addMessage a msg).resolutions.filter (fun x => x.wid == c.timeoutId) =
        s.resolutions.filter (fun x => x.wid == c.timeoutId)) := by
  have hInv := reachable_inv h
  have hba : b ≠ a := fun hb => hab hb.symm
  refine ⟨fun msg => addMessage_queues_other hba,
    fun timeout => getMessage_queues_other hba,
    fun wid => timeoutCallback_queues_other hba,
    fun content => submit_queues_other hba, ?_⟩
  intro msg c hc
  rcases hw : (s.queues a).waitingConsumers with _ | ⟨d, rest⟩
  · rw [addMessage_enqueue hw]
  · have hd0 : d ∈ (s.queues a).waitingConsumers := by
      rw [hw]; exact List.mem_cons_self d rest
    have hdc : d.timeoutId ≠ c.timeoutId := hInv.waiters_disjoint hab hd0 hc
    rw [addMessage_deliver hw (hInv.waiter_unres hd0)]
    dsimp only
    rw [List.filter_append]
    have hsing : List.filter (fun x => x.wid == c.timeoutId)
        ([⟨d.timeoutId, some msg, s.now⟩] : List Resolution) = [] := by
      simp [hdc]
    rw [hsing, List.append_nil]

theorem queue_isolation_witness :
    ((runD [Ev.receive "b" 7]).addMessage "a" ⟨3, "x", 1⟩).queues "b" =
      (runD [Ev.receive "b" 7]).queues "b" :=
  (queue_isolation (runD [Ev.receive "b" 7]) ⟨[Ev.receive "b" 7], rfl⟩ "a" "b"
    (by decide)).1 ⟨3, "x", 1⟩

/-- C8: `submit` (the POST handler) returns the freshly generated id, which
differs from every previously issued id; the issued-id log stays duplicate
free; the operation is a total function whose step always succeeds (it
never blocks and never fails); and the message handed to `addMessage`
carries that id and the current clock value as creation timestamp. -/
theorem submit_returns_fresh_id (s : QueueManager) (h : Reachable s)
    (name content : String) :
    (s.submit name content).2 = s.nextMsgId ∧
    (s.submit name content).2 ∉ s.issuedIds ∧
    ((s.submit name content).1).issuedIds = s.issuedIds ++ [s.nextMsgId] ∧
    ((s.submit name content).1).issuedIds.Nodup ∧
    s.step (Ev.submit name content) = some ((s.submit name content).1) ∧
    (s.submit name content).1 =
      QueueManager.addMessage
        { s with
            nextMsgId := s.nextMsgId + 1
            issuedIds := s.issuedIds ++ [s.nextMsgId] }
        name ⟨s.nextMsgId, content, s.now⟩ := by
  have hInv := reachable_inv h
  refine ⟨rfl, ?_, ?_, ?_, rfl, rfl⟩
  · show s.nextMsgId ∉ s.issuedIds
    rw [hInv.issued]
    simp [List.mem_range]
  · exact addMessage_issuedIds _ name _
  · have hiss := (inv_submit hInv name content).issued
    rw [hiss]
    exact List.nodup_range _

theorem submit_returns_fresh_id_witness :
    (initState.submit "q" "hello").2 ∉ initState.issuedIds :=
  (submit_returns_fresh_id initState ⟨[], rfl⟩ "q" "hello").2.1

/-- C9: evaluation of the GET adapter's timeout handling.  A missing (or
empty) `timeout` query parameter yields the default 10000 ms, but a
malformed non-numeric value such as `"abc"` is parsed by
`parseInt(..., 10)` with no `NaN` check, so `NaN` (`none` here) — not the
default — is what reaches the core `getMessage` call. -/
theorem malformed_timeout_reaches_core :
    parseTimeoutParam none = some 10000 ∧
    parseTimeoutParam (some "") = some 10000 ∧
    parseTimeoutParam (some "abc") = none ∧
    parseTimeoutParam (some "abc") ≠ some 10000 :=
  ⟨rfl, by decide, by decide, by decide⟩

/-- C10: the `reject` closure stored in every `WaitingConsumer` is dead
code: no reachable state has any recorded invocation of it, while actually
invoking it (`consumerReject`) would leave a visible record. -/
theorem reject_is_dead_code (s : QueueManager) (h : Reachable s) :
    s.rejectLog = [] ∧
    ∀ c : WaitingConsumer, (s.consumerReject c).rejectLog = [c.timeoutId] := by
  have hInv := reachable_inv h
  refine ⟨hInv.rejects, ?_⟩
  intro c
  unfold QueueManager.consumerReject
  dsimp only
  rw [promiseResolve_rejectLog, hInv.rejects]
  rfl

theorem reject_is_dead_code_witness :
    (runD [Ev.receive "a" 2, Ev.tick 5, Ev.fire 0]).rejectLog = [] :=
  (reject_is_dead_code (runD [Ev.receive "a" 2, Ev.tick 5, Ev.fire 0])
    ⟨[Ev.receive "a" 2, Ev.tick 5, Ev.fire 0], rfl⟩).1

end Queues
